import Mathlib

/-!
Shallow embedding of the Prechelt phone-number encoder
(`src/rust/phone_encoder/src/main.rs`).

Digit strings are modelled as lists of ASCII byte values (the Rust program
stores `Vec<u8>` of digit characters), dictionary keys likewise.  The
recursive search is embedded with an explicit fuel parameter; the top-level
entry points instantiate the fuel with the digit-string length, and the
fuel-sufficiency theorem shows any fuel at least that large gives the same
result, mirroring the bounded recursion depth of the Rust function.
-/

set_option maxHeartbeats 1000000

/-- Embedding of `char_to_digit`.  The Rust function panics on characters
outside `a..z` / `A..Z`; the panic is modelled as `none`. -/
def char_to_digit (ch : Char) : Option Nat :=
  let c := ch.toLower
  if c = 'e' then some 0
  else if c = 'j' ∨ c = 'n' ∨ c = 'q' then some 1
  else if c = 'r' ∨ c = 'w' ∨ c = 'x' then some 2
  else if c = 'd' ∨ c = 's' ∨ c = 'y' then some 3
  else if c = 'f' ∨ c = 't' then some 4
  else if c = 'a' ∨ c = 'm' then some 5
  else if c = 'c' ∨ c = 'i' ∨ c = 'v' then some 6
  else if c = 'b' ∨ c = 'k' ∨ c = 'u' then some 7
  else if c = 'l' ∨ c = 'o' ∨ c = 'p' then some 8
  else if c = 'g' ∨ c = 'h' ∨ c = 'z' then some 9
  else none

/-- Embedding of `word_to_number`: keep the ASCII-alphabetic characters,
map each through `char_to_digit` and shift into ASCII digit bytes.
`Char.isAlpha` is exactly Rust's `char::is_ascii_alphabetic`.  On the
filtered characters `char_to_digit` never returns `none`
(`char_to_digit_isSome_eq` below), so the `filterMap` agrees with
the Rust `map`. -/
def word_to_number (word : String) : List Nat :=
  ((word.data.filter Char.isAlpha).filterMap char_to_digit).map (fun d => d + 48)

/-- The Rust `Dictionary` is a hash map from digit keys (`Vec<u8>`) to the
words sharing that key; only lookup by key is semantically relevant, so it
is modelled as an association list. -/
abbrev Dictionary := List (List Nat × List String)

/-- Embedding of `HashMap::get`. -/
def Dictionary.get (dict : Dictionary) (key : List Nat) : Option (List String) :=
  (dict.find? (fun p => p.1 = key)).map Prod.snd

/-- One step of `load_dict`'s loop body: `dict.entry(key).or_default();
words.push(word)` — append to the existing bucket, or create one. -/
def insertWord (dict : Dictionary) (key : List Nat) (w : String) : Dictionary :=
  match dict with
  | [] => [(key, [w])]
  | (k, ws) :: rest =>
    if k = key then (k, ws ++ [w]) :: rest else (k, ws) :: insertWord rest key w

/-- Embedding of `load_dict`: fold the word lines into the dictionary,
keying each word by `word_to_number`. -/
def load_dict (lines : List String) : Dictionary :=
  lines.foldl (fun d w => insertWord d (word_to_number w) w) []

/-- Embedding of the `WordOrDigit` enum. -/
inductive WordOrDigit where
  | Word : String → WordOrDigit
  | Digit : Nat → WordOrDigit
  deriving DecidableEq

/-- Embedding of `WordOrDigit::len`.  Rust `str::len` is the UTF-8 byte
count of the string (not its character count). -/
def WordOrDigit.len : WordOrDigit → Nat
  | .Word w => w.utf8ByteSize
  | .Digit _ => 1

/-- Embedding of the `Display` impl: a word renders as its text, a digit as
its decimal digit. -/
def WordOrDigit.render : WordOrDigit → String
  | .Word s => s
  | .Digit d => toString d

/-- The `matches!(word, WordOrDigit::Digit(..))` test. -/
def WordOrDigit.isDigitSeg : WordOrDigit → Bool
  | .Word _ => false
  | .Digit _ => true

/-- The `words.last()` digit test in `print_translations`. -/
def lastIsDigit (words : List WordOrDigit) : Bool :=
  match words.getLast? with
  | some (WordOrDigit.Digit _) => true
  | _ => false

/-- The scanning loop of `should_print` over `words[1..]`, carrying
`was_digit` and `acceptable_len` exactly as the Rust loop does (the
`acceptable_len == 0` refresh happens before the rejection tests). -/
def should_print_loop (was_digit : Bool) (acceptable_len : Nat) :
    List WordOrDigit → Bool
  | [] => true
  | seg :: rest =>
    let aLen := if acceptable_len = 0 then seg.len else acceptable_len
    let is_digit := seg.isDigitSeg
    if was_digit = is_digit ∨ (is_digit = false ∧ seg.len ≠ aLen) then false
    else should_print_loop is_digit aLen rest

/-- Embedding of `should_print`. -/
def should_print (words : List WordOrDigit) : Bool :=
  match words with
  | [] => false
  | [_] => true
  | w :: rest =>
    match w with
    | .Word s => should_print_loop false (WordOrDigit.Word s).len rest
    | .Digit _ => should_print_loop true 0 rest

/-- Embedding of `print_solution`.  The Rust function writes to the shared
sink and returns a `bool`; it is modelled as `none` (returned `false`,
wrote nothing) or `some out` (returned `true`, wrote `out`). -/
def print_solution (num : String) (words : List WordOrDigit) : Option String :=
  if should_print words = false then none
  else if words = [] then some (num ++ ":")
  else
    let parts := words.splitAt (words.length - 1)
    some (num ++ ": "
      ++ String.join (parts.1.map (fun w => w.render ++ " "))
      ++ String.join (parts.2.map WordOrDigit.render)
      ++ "\n")

/-- The `found_word` flag of `print_translations`: some prefix of the
remaining digits has a non-empty dictionary bucket. -/
def foundWord (dict : Dictionary) (digits : List Nat) : Bool :=
  (List.range digits.length).any (fun i =>
    match dict.get (digits.take (i + 1)) with
    | some found_words => !found_words.isEmpty
    | none => false)

/-- The recursive search of `print_translations`, embedded with explicit
fuel and returning the list of complete stacks (one entry per time the
search reaches an empty remaining-digit string), in traversal order.
With fuel at least `digits.length` the out-of-fuel branch is unreachable
(`searchAux_fuel_eq` below). -/
def searchAux (dict : Dictionary) : Nat → List Nat → List WordOrDigit →
    List (List WordOrDigit)
  | _, [], words => [words]
  | 0, _ :: _, _ => []
  | fuel + 1, d :: ds, words =>
    let digits := d :: ds
    ((List.range digits.length).flatMap (fun i =>
      match dict.get (digits.take (i + 1)) with
      | some found_words => found_words.flatMap (fun w =>
          searchAux dict fuel (digits.drop (i + 1)) (words ++ [WordOrDigit.Word w]))
      | none => []))
    ++ (if foundWord dict digits then []
        else if lastIsDigit words then []
        else searchAux dict fuel ds (words ++ [WordOrDigit.Digit (d - 48)]))

/-- The complete paths explored by `print_translations` from a given digit
string, starting (as `main` does) from the empty stack. -/
def completeStacks (dict : Dictionary) (digits : List Nat) :
    List (List WordOrDigit) :=
  searchAux dict digits.length digits []

/-- Result of a run of the driver: the two counters of `main` and the bytes
written to standard output. -/
structure TransResult where
  solutions : Nat
  rejected : Nat
  output : String
  deriving DecidableEq

/-- Sequential composition of two run fragments: counters add, output
concatenates in order. -/
def TransResult.app (a b : TransResult) : TransResult :=
  ⟨a.solutions + b.solutions, a.rejected + b.rejected, a.output ++ b.output⟩

/-- Empty run fragment. -/
def TransResult.nil : TransResult := ⟨0, 0, ""⟩

/-- Combine the run fragments of the elements of a list, in order. -/
def TransResult.concatMap (l : List α) (f : α → TransResult) : TransResult :=
  l.foldr (fun a acc => (f a).app acc) TransResult.nil

/-- Embedding of `print_translations` itself (same recursion as
`searchAux`), threading the two counters and the written output. -/
def print_translations (dict : Dictionary) (num : String) :
    Nat → List Nat → List WordOrDigit → TransResult
  | _, [], words =>
    match print_solution num words with
    | some out => ⟨1, 0, out⟩
    | none => ⟨0, 1, ""⟩
  | 0, _ :: _, _ => TransResult.nil
  | fuel + 1, d :: ds, words =>
    let digits := d :: ds
    (TransResult.concatMap (List.range digits.length) (fun i =>
      match dict.get (digits.take (i + 1)) with
      | some found_words => TransResult.concatMap found_words (fun w =>
          print_translations dict num fuel (digits.drop (i + 1))
            (words ++ [WordOrDigit.Word w]))
      | none => TransResult.nil)).app
    (if foundWord dict digits then TransResult.nil
     else if lastIsDigit words then TransResult.nil
     else print_translations dict num fuel ds (words ++ [WordOrDigit.Digit (d - 48)]))

/-- The digit stripping of `main`: keep ASCII digit characters, cast each
to a byte (`ch as u8` truncates modulo 256; on the filtered characters the
value is 48..57 and the truncation is the identity). -/
def digitsOf (num : String) : List Nat :=
  (num.data.filter Char.isDigit).map (fun ch => ch.toNat % 256)

/-- Processing of one input line in `main`'s loop. -/
def processNumber (dict : Dictionary) (num : String) : TransResult :=
  print_translations dict num (digitsOf num).length (digitsOf num) []

/-- Embedding of a whole run of `main` on the given word lines and number
lines: build the dictionary, then process every number in order,
accumulating the counters and the output. -/
def mainRun (wordLines numLines : List String) : TransResult :=
  let dict := load_dict wordLines
  numLines.foldl (fun acc num => acc.app (processNumber dict num)) TransResult.nil

/-- All segment stacks the search ever holds: the stack at entry of every
call of `searchAux` (same recursion tree). -/
def allStacksAux (dict : Dictionary) : Nat → List Nat → List WordOrDigit →
    List (List WordOrDigit)
  | _, [], words => [words]
  | 0, _ :: _, words => [words]
  | fuel + 1, d :: ds, words =>
    let digits := d :: ds
    words ::
    (((List.range digits.length).flatMap (fun i =>
      match dict.get (digits.take (i + 1)) with
      | some found_words => found_words.flatMap (fun w =>
          allStacksAux dict fuel (digits.drop (i + 1)) (words ++ [WordOrDigit.Word w]))
      | none => []))
    ++ (if foundWord dict digits then []
        else if lastIsDigit words then []
        else allStacksAux dict fuel ds (words ++ [WordOrDigit.Digit (d - 48)])))

/-- All stacks held by the search started from the empty stack. -/
def allStacks (dict : Dictionary) (digits : List Nat) : List (List WordOrDigit) :=
  allStacksAux dict digits.length digits []

/-- Every key the search ever passes to `Dictionary.get` (same recursion
tree as `searchAux`). -/
def lookupKeysAux (dict : Dictionary) : Nat → List Nat → List WordOrDigit →
    List (List Nat)
  | _, [], _ => []
  | 0, _ :: _, _ => []
  | fuel + 1, d :: ds, words =>
    let digits := d :: ds
    ((List.range digits.length).map (fun i => digits.take (i + 1)))
    ++ ((List.range digits.length).flatMap (fun i =>
      match dict.get (digits.take (i + 1)) with
      | some found_words => found_words.flatMap (fun w =>
          lookupKeysAux dict fuel (digits.drop (i + 1)) (words ++ [WordOrDigit.Word w]))
      | none => []))
    ++ (if foundWord dict digits then []
        else if lastIsDigit words then []
        else lookupKeysAux dict fuel ds (words ++ [WordOrDigit.Digit (d - 48)]))

/-- Keys looked up over the whole search of one digit string. -/
def lookupKeys (dict : Dictionary) (digits : List Nat) : List (List Nat) :=
  lookupKeysAux dict digits.length digits []

/-- No two consecutive digit segments in a stack. -/
def noConsecDigits : List WordOrDigit → Bool
  | a :: b :: rest => !(a.isDigitSeg && b.isDigitSeg) && noConsecDigits (b :: rest)
  | _ => true

/-- The digit key a segment contributes to the reconstruction of the input:
a word contributes its dictionary key, a digit its ASCII digit byte. -/
def segKey : WordOrDigit → List Nat
  | .Word w => word_to_number w
  | .Digit d => [d + 48]

/-- Concatenated keys of a stack. -/
def segKeys (s : List WordOrDigit) : List Nat := s.flatMap segKey

/-! ## Helper lemmas about characters -/

/-- An ASCII-alphabetic character has code point in `65..90` or `97..122`. -/
lemma isAlpha_toNat_bounds (c : Char) (h : c.isAlpha = true) :
    (65 ≤ c.toNat ∧ c.toNat ≤ 90) ∨ (97 ≤ c.toNat ∧ c.toNat ≤ 122) := by
  simpa [Char.isAlpha, Char.isUpper, Char.isLower] using h

/-- An ASCII digit character has code point in `48..57`. -/
lemma isDigit_toNat_bounds (c : Char) (h : c.isDigit = true) :
    48 ≤ c.toNat ∧ c.toNat ≤ 57 := by
  simpa [Char.isDigit] using h

/-- `char_to_digit` succeeds exactly on the ASCII letters. -/
lemma char_to_digit_isSome_eq (c : Char) : (char_to_digit c).isSome = c.isAlpha := by
  by_cases h : c.toNat ≤ 122
  · rw [← Char.ofNat_toNat c]
    set n := c.toNat with hn
    clear_value n
    interval_cases n <;> decide
  · have h123 : 123 ≤ c.toNat := by omega
    have halpha : c.isAlpha = false := by
      cases ha : c.isAlpha with
      | false => rfl
      | true =>
        have hb := isAlpha_toNat_bounds c ha
        omega
    have htl : c.toLower = c := by
      unfold Char.toLower
      rw [if_neg (by omega)]
    have hne : ∀ x : Char, x.toNat ≤ 122 → ¬ (c = x) := by
      intro x hx hcx
      rw [hcx] at h123
      omega
    rw [halpha]
    simp only [char_to_digit, htl]
    rw [if_neg (hne 'e' (by decide))]
    rw [if_neg (by push_neg; exact ⟨hne 'j' (by decide), hne 'n' (by decide), hne 'q' (by decide)⟩)]
    rw [if_neg (by push_neg; exact ⟨hne 'r' (by decide), hne 'w' (by decide), hne 'x' (by decide)⟩)]
    rw [if_neg (by push_neg; exact ⟨hne 'd' (by decide), hne 's' (by decide), hne 'y' (by decide)⟩)]
    rw [if_neg (by push_neg; exact ⟨hne 'f' (by decide), hne 't' (by decide)⟩)]
    rw [if_neg (by push_neg; exact ⟨hne 'a' (by decide), hne 'm' (by decide)⟩)]
    rw [if_neg (by push_neg; exact ⟨hne 'c' (by decide), hne 'i' (by decide), hne 'v' (by decide)⟩)]
    rw [if_neg (by push_neg; exact ⟨hne 'b' (by decide), hne 'k' (by decide), hne 'u' (by decide)⟩)]
    rw [if_neg (by push_neg; exact ⟨hne 'l' (by decide), hne 'o' (by decide), hne 'p' (by decide)⟩)]
    rw [if_neg (by push_neg; exact ⟨hne 'g' (by decide), hne 'h' (by decide), hne 'z' (by decide)⟩)]
    rfl

/-- A character below code point 128 occupies one UTF-8 byte. -/
lemma utf8Size_eq_one_of_ascii (c : Char) (h : c.toNat < 128) : c.utf8Size = 1 := by
  unfold Char.utf8Size
  rw [if_pos]
  show c.val.val ≤ 127
  exact Nat.le_of_lt_succ h

/-- For a string of ASCII characters the UTF-8 byte count equals the
character count. -/
lemma utf8ByteSize_eq_length_of_ascii (w : String)
    (h : (w.data.all fun c => decide (c.toNat < 128)) = true) :
    w.utf8ByteSize = w.length := by
  cases w with
  | mk data =>
    simp only [List.all_eq_true, decide_eq_true_eq] at h
    show String.utf8ByteSize.go data = data.length
    induction data with
    | nil => rfl
    | cons c cs ih =>
      show String.utf8ByteSize.go cs + c.utf8Size = cs.length + 1
      rw [utf8Size_eq_one_of_ascii c (h c (List.mem_cons_self c cs)),
        ih (fun x hx => h x (List.mem_cons_of_mem c hx))]

/-! ## C8 -/

/-- C8: the letter-to-digit mapper succeeds exactly on ASCII letters in
either case (so any other character takes the panic path, modelled as
`none`, rather than a normal return), and on letters it returns the digit
of the fixed table e=0; j,n,q=1; r,w,x=2; d,s,y=3; f,t=4; a,m=5; c,i,v=6;
b,k,u=7; l,o,p=8; g,h,z=9. -/
theorem char_to_digit_fixed_table :
    (∀ c : Char, (char_to_digit c).isSome = c.isAlpha) ∧
    ([('e', 0), ('j', 1), ('n', 1), ('q', 1), ('r', 2), ('w', 2), ('x', 2),
      ('d', 3), ('s', 3), ('y', 3), ('f', 4), ('t', 4), ('a', 5), ('m', 5),
      ('c', 6), ('i', 6), ('v', 6), ('b', 7), ('k', 7), ('u', 7), ('l', 8),
      ('o', 8), ('p', 8), ('g', 9), ('h', 9), ('z', 9)].all
      (fun p => char_to_digit p.1 = some p.2
        && char_to_digit p.1.toUpper = some p.2)) = true :=
  ⟨char_to_digit_isSome_eq, by decide⟩

/-! ## C1 -/

/-- C1 counterexample: on the input line "A-B", whose stripped digit string
is empty, the program writes nothing at all — not the bare line "A-B:" the
claim describes — and counts the candidate as rejected. -/
theorem empty_digits_no_render_cx :
    (processNumber [] "A-B").output = "" ∧
    ¬ (processNumber [] "A-B").output = "A-B:" ∧
    (processNumber [] "A-B").solutions = 0 ∧
    (processNumber [] "A-B").rejected = 1 := by
  decide

/-- C1 (amended): for an input line whose stripped digit string is empty,
the program renders nothing for that line — `should_print` rejects the
empty stack before `print_solution` writes anything, so the bare-colon
branch is unreachable — and it increments the rejected counter, not the
accepted counter. -/
theorem empty_digits_rejected (dict : Dictionary) (num : String)
    (h : digitsOf num = []) :
    print_solution num [] = none ∧
    processNumber dict num = ⟨0, 1, ""⟩ := by
  refine ⟨rfl, ?_⟩
  unfold processNumber
  rw [h]
  rfl

/-- Witness for C1: the concrete line "A-B" with the empty dictionary. -/
theorem empty_digits_rejected_witness :
    print_solution "A-B" [] = none ∧
    processNumber [] "A-B" = ⟨0, 1, ""⟩ :=
  empty_digits_rejected [] "A-B" (by decide)

/-! ## C5 -/

/-- C5 counterexample: `WordOrDigit::len` of the word "é" is its UTF-8 byte
count 2, not its character count 1; consequently the filter's equal-length
rule accepts a stack whose words have character counts 1 and 2 (their byte
counts are both 2). -/
theorem segment_len_not_char_count_cx :
    (WordOrDigit.Word "é").len = 2 ∧
    ("é" : String).length = 1 ∧
    should_print [WordOrDigit.Word "é", WordOrDigit.Digit 5,
      WordOrDigit.Word "ab"] = true ∧
    ¬ ("é" : String).length = ("ab" : String).length := by
  decide

/-- C5 (amended): the length of a word segment is the UTF-8 byte count of
its word — which coincides with the character count exactly when the word
is ASCII — and the length of a digit segment is 1; the filter's
equal-length rule therefore compares byte counts. -/
theorem segment_len_byte_count (w : String) (d : Nat)
    (h : (w.data.all fun c => decide (c.toNat < 128)) = true) :
    (WordOrDigit.Word w).len = w.utf8ByteSize ∧
    (WordOrDigit.Word w).len = w.length ∧
    (WordOrDigit.Digit d).len = 1 :=
  ⟨rfl, utf8ByteSize_eq_length_of_ascii w h, rfl⟩

/-- Witness for C5: the ASCII word "abc" and the digit 7. -/
theorem segment_len_byte_count_witness :
    (WordOrDigit.Word "abc").len = ("abc" : String).utf8ByteSize ∧
    (WordOrDigit.Word "abc").len = ("abc" : String).length ∧
    (WordOrDigit.Digit 7).len = 1 :=
  segment_len_byte_count "abc" 7 (by decide)

/-! ## C2: the acceptance rule as the specification words it -/

/-- Spec-side: segment kinds strictly alternate along the stack. -/
def kindsAlternate : List WordOrDigit → Bool
  | [] => true
  | [_] => true
  | a :: b :: rest => (a.isDigitSeg != b.isDigitSeg) && kindsAlternate (b :: rest)

/-- Spec-side: every word segment in the stack has length `n`. -/
def wordsHaveLen (n : Nat) (s : List WordOrDigit) : Bool :=
  s.all fun seg => seg.isDigitSeg || seg.len == n

/-- Spec-side fixed length, as the claim words it: the first segment's word
length, or, when the first segment is a digit, the length of the second
segment. -/
def specFixedLen : List WordOrDigit → Nat
  | WordOrDigit.Word w :: _ => (WordOrDigit.Word w).len
  | WordOrDigit.Digit _ :: b :: _ => b.len
  | _ => 0

/-- Spec-side acceptance predicate: reject the empty stack, accept any
single segment, and accept a longer stack exactly when kinds alternate and
every word segment has the fixed length. -/
def specAccepts (s : List WordOrDigit) : Bool :=
  match s with
  | [] => false
  | [_] => true
  | _ => kindsAlternate s && wordsHaveLen (specFixedLen s) s

/-- Alternation check seeded with the kind of the previous segment. -/
def altFrom (wasd : Bool) : List WordOrDigit → Bool
  | [] => true
  | seg :: rest => (wasd != seg.isDigitSeg) && altFrom seg.isDigitSeg rest

lemma altFrom_eq_kindsAlternate (a : WordOrDigit) (rest : List WordOrDigit) :
    altFrom a.isDigitSeg rest = kindsAlternate (a :: rest) := by
  induction rest generalizing a with
  | nil => rfl
  | cons b r ih => simp [altFrom, kindsAlternate, ih b]

/-- Once the tracked length is positive it is never refreshed, and the scan
loop is exactly alternation plus the word-length rule. -/
lemma should_print_loop_eq (rest : List WordOrDigit) : ∀ wasd L, 0 < L →
    should_print_loop wasd L rest = (altFrom wasd rest && wordsHaveLen L rest) := by
  induction rest with
  | nil => intro wasd L hL; rfl
  | cons seg r ih =>
    intro wasd L hL
    have hL0 : ¬ (L = 0) := Nat.pos_iff_ne_zero.mp hL
    cases wasd <;> cases hd : seg.isDigitSeg <;> by_cases hlen : seg.len = L <;>
      simp [should_print_loop, hL0, hd, hlen, altFrom, wordsHaveLen, ih _ _ hL]

/-- `should_print` agrees with the spec-side rule on every stack whose word
segments all have positive length. -/
lemma should_print_eq_specAccepts (s : List WordOrDigit)
    (h : ∀ w, WordOrDigit.Word w ∈ s → 0 < (WordOrDigit.Word w).len) :
    should_print s = specAccepts s := by
  match s with
  | [] => rfl
  | [a] => cases a <;> rfl
  | a :: b :: rest =>
    cases a with
    | Word w =>
      have hw : 0 < (WordOrDigit.Word w).len := h w (List.mem_cons_self _ _)
      show should_print_loop false (WordOrDigit.Word w).len (b :: rest) = _
      rw [should_print_loop_eq _ _ _ hw]
      have halt := altFrom_eq_kindsAlternate (WordOrDigit.Word w) (b :: rest)
      simp only [WordOrDigit.isDigitSeg] at halt
      rw [halt]
      simp [specAccepts, specFixedLen, wordsHaveLen, WordOrDigit.isDigitSeg]
    | Digit d0 =>
      cases b with
      | Digit d1 =>
        simp [should_print, should_print_loop, specAccepts, kindsAlternate,
          WordOrDigit.isDigitSeg]
      | Word wb =>
        have hwb : 0 < (WordOrDigit.Word wb).len := h wb (by simp)
        show should_print_loop true 0 (WordOrDigit.Word wb :: rest) = _
        have hstep : should_print_loop true 0 (WordOrDigit.Word wb :: rest)
            = should_print_loop false (WordOrDigit.Word wb).len rest := by
          simp [should_print_loop, WordOrDigit.isDigitSeg]
        rw [hstep, should_print_loop_eq _ _ _ hwb]
        have halt := altFrom_eq_kindsAlternate (WordOrDigit.Word wb) rest
        simp only [WordOrDigit.isDigitSeg] at halt
        rw [halt]
        simp [specAccepts, specFixedLen, kindsAlternate, wordsHaveLen,
          WordOrDigit.isDigitSeg]

/-- C2 counterexample: on the stack [Word "", Digit 5, Word "a"] the filter
accepts, although kinds alternate and the claim's fixed length (the first
segment's word length, 0) differs from the length of the word "a": the
zero-length first word leaves the tracked length unset, so the scan fixes
it from the digit segment instead. -/
theorem should_print_fixed_length_cx :
    should_print [WordOrDigit.Word "", WordOrDigit.Digit 5,
      WordOrDigit.Word "a"] = true ∧
    specAccepts [WordOrDigit.Word "", WordOrDigit.Digit 5,
      WordOrDigit.Word "a"] = false ∧
    kindsAlternate [WordOrDigit.Word "", WordOrDigit.Digit 5,
      WordOrDigit.Word "a"] = true ∧
    specFixedLen [WordOrDigit.Word "", WordOrDigit.Digit 5,
      WordOrDigit.Word "a"] = 0 ∧
    (WordOrDigit.Word "a").len = 1 := by
  decide

/-- C2 (amended): the filter rejects the empty stack, accepts every single
segment stack, and — provided every word segment in the stack has nonzero
length — accepts a multi-segment stack exactly when kinds strictly
alternate and every word segment's length equals the fixed length (the
first segment's word length, or the second segment's length when the first
is a digit). -/
theorem should_print_matches_spec_rule (s : List WordOrDigit)
    (h : (s.all fun seg => decide (0 < seg.len)) = true) :
    should_print s = specAccepts s := by
  refine should_print_eq_specAccepts s (fun w hw => ?_)
  simpa using List.all_eq_true.mp h _ hw

/-- Witness for C2: a concrete alternating stack of equal-length words. -/
theorem should_print_matches_spec_rule_witness :
    should_print [WordOrDigit.Word "ab", WordOrDigit.Digit 3,
      WordOrDigit.Word "cd"]
      = specAccepts [WordOrDigit.Word "ab", WordOrDigit.Digit 3,
        WordOrDigit.Word "cd"] :=
  should_print_matches_spec_rule _ (by decide)

lemma searchAux_fuel_eq (dict : Dictionary) :
    ∀ n f1 f2 digits words, digits.length ≤ n → digits.length ≤ f1 →
      digits.length ≤ f2 →
      searchAux dict f1 digits words = searchAux dict f2 digits words := by
  intro n
  induction n with
  | zero =>
    intro f1 f2 digits words h1 _ _
    have : digits = [] := List.eq_nil_of_length_eq_zero (Nat.le_zero.mp h1)
    subst this
    cases f1 <;> cases f2 <;> rfl
  | succ n ih =>
    intro f1 f2 digits words h1 h2 h3
    match digits with
    | [] => cases f1 <;> cases f2 <;> rfl
    | d :: ds =>
      simp only [List.length_cons] at h1 h2 h3
      match f1, f2 with
      | g1 + 1, g2 + 1 =>
        simp only [searchAux]
        congr 1
        · refine List.flatMap_congr (fun i _ => ?_)
          cases hg : dict.get ((d :: ds).take (i + 1)) with
          | none => rfl
          | some found_words =>
            simp only
            refine List.flatMap_congr (fun w _ => ?_)
            have hlen : ((d :: ds).drop (i + 1)).length ≤ n := by
              simp [List.length_drop]
              omega
            exact ih g1 g2 _ _ hlen (by simp [List.length_drop]; omega)
              (by simp [List.length_drop]; omega)
        · by_cases hf : foundWord dict (d :: ds)
          · simp [hf]
          · by_cases hl : lastIsDigit words
            · simp [hf, hl]
            · simp only [hf, hl, if_false, if_neg]
              exact ih g1 g2 ds _ (by omega) (by omega) (by omega)

/-! ## C9 -/

/-- C9: the search terminates with recursion depth bounded by the length of
the digit string — every recursive call consumes at least one digit, so any
fuel of at least `digits.length` yields the same result as fuel exactly
`digits.length`, and the out-of-fuel branch is never taken. -/
theorem search_depth_bounded (dict : Dictionary) (digits : List Nat)
    (words : List WordOrDigit) (fuel : Nat) (h : digits.length ≤ fuel) :
    searchAux dict fuel digits words = searchAux dict digits.length digits words :=
  searchAux_fuel_eq dict digits.length fuel digits.length digits words
    (Nat.le_refl _) h (Nat.le_refl _)

/-- Witness for C9: searching "0" against the one-word dictionary with any
surplus fuel gives the canonical result. -/
theorem search_depth_bounded_witness :
    searchAux (load_dict ["e"]) 5 [48] [] = searchAux (load_dict ["e"]) 1 [48] [] :=
  search_depth_bounded (load_dict ["e"]) [48] [] 5 (by decide)

/-! ## Counting lemmas for the counters -/

@[simp] lemma TransResult.app_solutions (a b : TransResult) :
    (a.app b).solutions = a.solutions + b.solutions := rfl

@[simp] lemma TransResult.app_rejected (a b : TransResult) :
    (a.app b).rejected = a.rejected + b.rejected := rfl

@[simp] lemma TransResult.nil_solutions : TransResult.nil.solutions = 0 := rfl

@[simp] lemma TransResult.nil_rejected : TransResult.nil.rejected = 0 := rfl

lemma concatMap_counts {α β : Type} (l : List α) (f : α → TransResult)
    (g : α → List β)
    (h : ∀ a ∈ l, (f a).solutions + (f a).rejected = (g a).length) :
    (TransResult.concatMap l f).solutions + (TransResult.concatMap l f).rejected
      = (l.flatMap g).length := by
  induction l with
  | nil => rfl
  | cons a t ih =>
    simp only [TransResult.concatMap, List.foldr_cons, List.flatMap_cons,
      List.length_append]
    have ht := ih (fun x hx => h x (List.mem_cons_of_mem a hx))
    simp only [TransResult.concatMap] at ht
    have ha := h a (List.mem_cons_self a t)
    simp only [TransResult.app_solutions, TransResult.app_rejected]
    omega

lemma print_translations_counts (dict : Dictionary) (num : String) :
    ∀ fuel digits words,
      (print_translations dict num fuel digits words).solutions
        + (print_translations dict num fuel digits words).rejected
        = (searchAux dict fuel digits words).length := by
  have happ : ∀ (a b : TransResult) (n m : Nat), a.solutions + a.rejected = n →
      b.solutions + b.rejected = m →
      (a.app b).solutions + (a.app b).rejected = n + m := by
    intro a b n m ha hb
    simp only [TransResult.app_solutions, TransResult.app_rejected]
    omega
  intro fuel
  induction fuel with
  | zero =>
    intro digits words
    match digits with
    | [] =>
      simp only [print_translations, searchAux]
      cases print_solution num words <;> simp
    | d :: ds => rfl
  | succ fuel ih =>
    intro digits words
    match digits with
    | [] =>
      simp only [print_translations, searchAux]
      cases print_solution num words <;> simp
    | d :: ds =>
      simp only [print_translations, searchAux, List.length_append]
      refine happ _ _ _ _ ?_ ?_
      · refine concatMap_counts _ _ _ (fun i _ => ?_)
        cases dict.get ((d :: ds).take (i + 1)) with
        | none => rfl
        | some found_words =>
          simp only
          exact concatMap_counts _ _ _ (fun w _ => ih _ _)
      · by_cases hf : foundWord dict (d :: ds)
        · simp [hf]
        · by_cases hl : lastIsDigit words
          · simp [hf, hl]
          · simpa [hf, hl] using ih ds (words ++ [WordOrDigit.Digit (d - 48)])

lemma foldl_run_counts (dict : Dictionary) (nums : List String) :
    ∀ acc : TransResult,
      (nums.foldl (fun acc num => acc.app (processNumber dict num)) acc).solutions
        + (nums.foldl (fun acc num => acc.app (processNumber dict num)) acc).rejected
      = acc.solutions + acc.rejected
        + (nums.map (fun num => (completeStacks dict (digitsOf num)).length)).sum := by
  induction nums with
  | nil => intro acc; simp
  | cons num t ih =>
    intro acc
    simp only [List.foldl_cons, List.map_cons, List.sum_cons]
    rw [ih]
    have := print_translations_counts dict num (digitsOf num).length (digitsOf num) []
    simp only [TransResult.app_solutions, TransResult.app_rejected]
    unfold processNumber completeStacks
    omega

/-! ## C7 -/

/-- C7: over a whole run, the accepted counter plus the rejected counter
equals the total number of complete paths explored by the search — the
number of times the search reaches an empty remaining-digit string,
summed over all input numbers. -/
theorem counters_equal_total_paths (wordLines numLines : List String) :
    (mainRun wordLines numLines).solutions + (mainRun wordLines numLines).rejected
      = (numLines.map (fun num =>
          (completeStacks (load_dict wordLines) (digitsOf num)).length)).sum := by
  unfold mainRun
  rw [foldl_run_counts]
  simp [TransResult.nil]

/-! ## Invariant lemmas: no adjacent digit segments -/

lemma noConsecDigits_push_word (ws : List WordOrDigit) (w : String)
    (h : noConsecDigits ws = true) :
    noConsecDigits (ws ++ [WordOrDigit.Word w]) = true := by
  induction ws with
  | nil => rfl
  | cons a t ih =>
    cases t with
    | nil => simp [noConsecDigits, WordOrDigit.isDigitSeg]
    | cons b t' =>
      simp only [noConsecDigits, Bool.and_eq_true] at h
      simp only [List.cons_append, noConsecDigits, Bool.and_eq_true]
      exact ⟨h.1, by simpa using ih h.2⟩

lemma lastIsDigit_cons_cons (a b : WordOrDigit) (t : List WordOrDigit) :
    lastIsDigit (a :: b :: t) = lastIsDigit (b :: t) := by
  simp [lastIsDigit, List.getLast?_cons_cons]

lemma noConsecDigits_push_digit (ws : List WordOrDigit) (d : Nat)
    (h : noConsecDigits ws = true) (hl : lastIsDigit ws = false) :
    noConsecDigits (ws ++ [WordOrDigit.Digit d]) = true := by
  induction ws with
  | nil => rfl
  | cons a t ih =>
    cases t with
    | nil =>
      cases a with
      | Word w => simp [noConsecDigits, WordOrDigit.isDigitSeg]
      | Digit d0 => simp [lastIsDigit] at hl
    | cons b t' =>
      simp only [noConsecDigits, Bool.and_eq_true] at h
      rw [lastIsDigit_cons_cons] at hl
      simp only [List.cons_append, noConsecDigits, Bool.and_eq_true]
      exact ⟨h.1, by simpa using ih h.2 hl⟩

lemma searchAux_inv (dict : Dictionary) :
    ∀ fuel digits words, noConsecDigits words = true →
      ∀ s ∈ searchAux dict fuel digits words, noConsecDigits s = true := by
  intro fuel
  induction fuel with
  | zero =>
    intro digits words hw s hs
    match digits with
    | [] => simp [searchAux] at hs; subst hs; exact hw
    | d :: ds => simp [searchAux] at hs
  | succ fuel ih =>
    intro digits words hw s hs
    match digits with
    | [] => simp [searchAux] at hs; subst hs; exact hw
    | d :: ds =>
      simp only [searchAux, List.mem_append, List.mem_flatMap,
        List.mem_range] at hs
      rcases hs with ⟨i, hi, hmem⟩ | hdig
      · rcases hget : dict.get ((d :: ds).take (i + 1)) with _ | found_words
        · rw [hget] at hmem; simp at hmem
        · rw [hget] at hmem
          simp only [List.mem_flatMap] at hmem
          rcases hmem with ⟨w, hwmem, hs⟩
          exact ih _ _ (noConsecDigits_push_word words w hw) s hs
      · by_cases hf : foundWord dict (d :: ds)
        · simp [hf] at hdig
        · by_cases hl : lastIsDigit words
          · simp [hf, hl] at hdig
          · rw [if_neg hf, if_neg hl] at hdig
            exact ih _ _ (noConsecDigits_push_digit words (d - 48) hw
              (Bool.not_eq_true _ ▸ hl)) s hdig

lemma allStacksAux_inv (dict : Dictionary) :
    ∀ fuel digits words, noConsecDigits words = true →
      ∀ s ∈ allStacksAux dict fuel digits words, noConsecDigits s = true := by
  intro fuel
  induction fuel with
  | zero =>
    intro digits words hw s hs
    match digits with
    | [] => simp [allStacksAux] at hs; subst hs; exact hw
    | d :: ds => simp [allStacksAux] at hs; subst hs; exact hw
  | succ fuel ih =>
    intro digits words hw s hs
    match digits with
    | [] => simp [allStacksAux] at hs; subst hs; exact hw
    | d :: ds =>
      simp only [allStacksAux, List.mem_cons, List.mem_append, List.mem_flatMap,
        List.mem_range] at hs
      rcases hs with rfl | ⟨i, hi, hmem⟩ | hdig
      · exact hw
      · rcases hget : dict.get ((d :: ds).take (i + 1)) with _ | found_words
        · rw [hget] at hmem; simp at hmem
        · rw [hget] at hmem
          simp only [List.mem_flatMap] at hmem
          rcases hmem with ⟨w, hwmem, hs⟩
          exact ih _ _ (noConsecDigits_push_word words w hw) s hs
      · by_cases hf : foundWord dict (d :: ds)
        · simp [hf] at hdig
        · by_cases hl : lastIsDigit words
          · simp [hf, hl] at hdig
          · rw [if_neg hf, if_neg hl] at hdig
            exact ih _ _ (noConsecDigits_push_digit words (d - 48) hw
              (Bool.not_eq_true _ ▸ hl)) s hdig

/-! ## C4 -/

/-- C4: at every point during the search — every stack the recursion ever
holds, collected by `allStacks` — and in every emitted segmentation, the
segment stack never contains two consecutive digit segments.  This holds
by construction (the digit push is guarded by the last-is-digit test),
independently of the acceptance filter. -/
theorem search_no_adjacent_digits (dict : Dictionary) (digits : List Nat) :
    (∀ s ∈ allStacks dict digits, noConsecDigits s = true) ∧
    (∀ s ∈ (completeStacks dict digits).filter should_print,
      noConsecDigits s = true) := by
  constructor
  · exact fun s hs => allStacksAux_inv dict _ digits [] rfl s hs
  · exact fun s hs =>
      searchAux_inv dict _ digits [] rfl s (List.mem_of_mem_filter hs)

/-- Witness for C4: the emitted stack for input "0" against dictionary
["e"]. -/
theorem search_no_adjacent_digits_witness :
    noConsecDigits [WordOrDigit.Word "e"] = true :=
  (search_no_adjacent_digits (load_dict ["e"]) [48]).2
    [WordOrDigit.Word "e"] (by decide)

/-! ## Dictionary coherence and the round-trip property -/

/-- A dictionary is coherent when every word sits in the bucket of its own
digit key. -/
def Coherent (dict : Dictionary) : Prop :=
  ∀ k ws w, dict.get k = some ws → w ∈ ws → word_to_number w = k

lemma insertWord_sound (d : Dictionary) (wrd : String)
    (h : ∀ p ∈ d, ∀ w ∈ p.2, word_to_number w = p.1) :
    ∀ p ∈ insertWord d (word_to_number wrd) wrd, ∀ w ∈ p.2, word_to_number w = p.1 := by
  induction d with
  | nil =>
    intro p hp w hw
    simp [insertWord] at hp
    subst hp
    simp at hw
    subst hw
    rfl
  | cons q rest ih =>
    rcases q with ⟨k, ws⟩
    intro p hp w hw
    simp only [insertWord] at hp
    by_cases hk : k = word_to_number wrd
    · rw [if_pos hk] at hp
      rcases List.mem_cons.mp hp with rfl | hp'
      · rcases List.mem_append.mp hw with hw' | hw'
        · exact h (k, ws) (List.mem_cons_self _ _) w hw'
        · simp at hw'
          subst hw'
          exact hk.symm
      · exact h p (List.mem_cons_of_mem _ hp') w hw
    · rw [if_neg hk] at hp
      rcases List.mem_cons.mp hp with rfl | hp'
      · exact h (k, ws) (List.mem_cons_self _ _) w hw
      · exact ih (fun q hq => h q (List.mem_cons_of_mem _ hq)) p hp' w hw

lemma foldl_insert_sound (ls : List String) :
    ∀ d : Dictionary, (∀ p ∈ d, ∀ w ∈ p.2, word_to_number w = p.1) →
      ∀ p ∈ ls.foldl (fun d w => insertWord d (word_to_number w) w) d,
        ∀ w ∈ p.2, word_to_number w = p.1 := by
  induction ls with
  | nil => intro d h; simpa using h
  | cons l t ih =>
    intro d h
    simp only [List.foldl_cons]
    exact ih _ (insertWord_sound d l h)

lemma load_dict_sound (lines : List String) :
    ∀ p ∈ load_dict lines, ∀ w ∈ p.2, word_to_number w = p.1 :=
  foldl_insert_sound lines [] (by simp)

lemma load_dict_coherent (lines : List String) : Coherent (load_dict lines) := by
  intro k ws w hget hw
  unfold Dictionary.get at hget
  rcases hfind : (load_dict lines).find? (fun p => p.1 = k) with _ | p
  · rw [hfind] at hget
    exact Option.noConfusion hget
  · rw [hfind] at hget
    have hws : p.2 = ws := Option.some.inj hget
    have hmem := List.mem_of_find?_eq_some hfind
    have hpred := List.find?_some hfind
    have hk : p.1 = k := by simpa using hpred
    have := load_dict_sound lines p hmem w (by rw [hws]; exact hw)
    rw [this, hk]

lemma segKeys_push (ws : List WordOrDigit) (x : WordOrDigit) :
    segKeys (ws ++ [x]) = segKeys ws ++ segKey x := by
  simp [segKeys, List.flatMap_append]

lemma searchAux_roundtrip (dict : Dictionary) (hco : Coherent dict) :
    ∀ fuel digits words, (∀ d ∈ digits, 48 ≤ d) →
      ∀ s ∈ searchAux dict fuel digits words,
        segKeys s = segKeys words ++ digits := by
  intro fuel
  induction fuel with
  | zero =>
    intro digits words hd s hs
    match digits with
    | [] => simp [searchAux] at hs; subst hs; simp
    | d :: ds => simp [searchAux] at hs
  | succ fuel ih =>
    intro digits words hd s hs
    match digits with
    | [] => simp [searchAux] at hs; subst hs; simp
    | d :: ds =>
      simp only [searchAux, List.mem_append, List.mem_flatMap,
        List.mem_range] at hs
      rcases hs with ⟨i, hi, hmem⟩ | hdig
      · rcases hget : dict.get ((d :: ds).take (i + 1)) with _ | found_words
        · rw [hget] at hmem; simp at hmem
        · rw [hget] at hmem
          simp only [List.mem_flatMap] at hmem
          rcases hmem with ⟨w, hwmem, hs⟩
          have hkey : word_to_number w = (d :: ds).take (i + 1) :=
            hco _ _ _ hget hwmem
          have hrec := ih ((d :: ds).drop (i + 1)) (words ++ [WordOrDigit.Word w])
            (fun x hx => hd x (List.mem_of_mem_drop hx)) s hs
          rw [hrec, segKeys_push]
          show segKeys words ++ segKey (WordOrDigit.Word w) ++ _ = _
          rw [List.append_assoc]
          congr 1
          show word_to_number w ++ _ = _
          rw [hkey, List.take_append_drop]
      · by_cases hf : foundWord dict (d :: ds)
        · simp [hf] at hdig
        · by_cases hl : lastIsDigit words
          · simp [hf, hl] at hdig
          · rw [if_neg hf, if_neg hl] at hdig
            have hrec := ih ds (words ++ [WordOrDigit.Digit (d - 48)])
              (fun x hx => hd x (List.mem_cons_of_mem _ hx)) s hdig
            rw [hrec, segKeys_push]
            show segKeys words ++ [d - 48 + 48] ++ ds = segKeys words ++ d :: ds
            have : d - 48 + 48 = d := Nat.sub_add_cancel (hd d (List.mem_cons_self _ _))
            rw [this, List.append_assoc]
            rfl

lemma digitsOf_ge_48 (num : String) : ∀ d ∈ digitsOf num, 48 ≤ d := by
  intro d hd
  simp only [digitsOf, List.mem_map, List.mem_filter] at hd
  rcases hd with ⟨ch, ⟨_, hdig⟩, rfl⟩
  have hb := isDigit_toNat_bounds ch hdig
  have : ch.toNat % 256 = ch.toNat := Nat.mod_eq_of_lt (by omega)
  omega

/-! ## C3 -/

/-- C3: for every dictionary the program can build and every input number,
every emitted segmentation round-trips — concatenating, in order, the digit
key of each word segment (the key under which the word is stored, i.e. its
`word_to_number`) and the literal digit byte of each digit segment yields
exactly the stripped digit string of the input. -/
theorem emitted_segmentation_roundtrip (wordLines : List String) (num : String)
    (s : List WordOrDigit)
    (hs : s ∈ (completeStacks (load_dict wordLines) (digitsOf num)).filter
      should_print) :
    segKeys s = digitsOf num := by
  have hmem := List.mem_of_mem_filter hs
  have := searchAux_roundtrip (load_dict wordLines) (load_dict_coherent wordLines)
    (digitsOf num).length (digitsOf num) [] (digitsOf_ge_48 num) s hmem
  simpa [segKeys] using this

/-- Witness for C3: dictionary ["e"], input "0", emitted stack [Word "e"]. -/
theorem emitted_segmentation_roundtrip_witness :
    segKeys [WordOrDigit.Word "e"] = digitsOf "0" :=
  emitted_segmentation_roundtrip ["e"] "0" [WordOrDigit.Word "e"] (by decide)

/-! ## Search structure lemmas -/

lemma searchAux_extends (dict : Dictionary) :
    ∀ fuel digits words s, s ∈ searchAux dict fuel digits words →
      ∃ t, s = words ++ t := by
  intro fuel
  induction fuel with
  | zero =>
    intro digits words s hs
    match digits with
    | [] => simp [searchAux] at hs; subst hs; exact ⟨[], by simp⟩
    | d :: ds => simp [searchAux] at hs
  | succ fuel ih =>
    intro digits words s hs
    match digits with
    | [] => simp [searchAux] at hs; subst hs; exact ⟨[], by simp⟩
    | d :: ds =>
      simp only [searchAux, List.mem_append, List.mem_flatMap,
        List.mem_range] at hs
      rcases hs with ⟨i, hi, hmem⟩ | hdig
      · rcases hget : dict.get ((d :: ds).take (i + 1)) with _ | found_words
        · rw [hget] at hmem; simp at hmem
        · rw [hget] at hmem
          simp only [List.mem_flatMap] at hmem
          rcases hmem with ⟨w, hwmem, hs⟩
          rcases ih _ _ s hs with ⟨t, ht⟩
          exact ⟨WordOrDigit.Word w :: t, by simpa using ht⟩
      · by_cases hf : foundWord dict (d :: ds)
        · simp [hf] at hdig
        · by_cases hl : lastIsDigit words
          · simp [hf, hl] at hdig
          · rw [if_neg hf, if_neg hl] at hdig
            rcases ih _ _ s hdig with ⟨t, ht⟩
            exact ⟨WordOrDigit.Digit (d - 48) :: t, by simpa using ht⟩

lemma load_dict_buckets_ne_nil (lines : List String) :
    ∀ k ws, (load_dict lines).get k = some ws → ws ≠ [] := by
  have hstruct : ∀ p ∈ load_dict lines, p.2 ≠ [] := by
    suffices hgen : ∀ (ls : List String) (d : Dictionary),
        (∀ p ∈ d, p.2 ≠ []) →
        ∀ p ∈ ls.foldl (fun d w => insertWord d (word_to_number w) w) d,
          p.2 ≠ [] by
      exact hgen lines [] (by simp)
    intro ls
    induction ls with
    | nil => intro d h; simpa using h
    | cons l t ih =>
      intro d h
      simp only [List.foldl_cons]
      refine ih _ ?_
      have : ∀ (dd : Dictionary) (key : List Nat) (wrd : String),
          (∀ p ∈ dd, p.2 ≠ []) → ∀ p ∈ insertWord dd key wrd, p.2 ≠ [] := by
        intro dd
        induction dd with
        | nil =>
          intro key wrd _ p hp
          simp [insertWord] at hp
          subst hp
          simp
        | cons q rest ihq =>
          rcases q with ⟨k, ws⟩
          intro key wrd hq p hp
          simp only [insertWord] at hp
          by_cases hk : k = key
          · rw [if_pos hk] at hp
            rcases List.mem_cons.mp hp with rfl | hp'
            · simp
            · exact hq p (List.mem_cons_of_mem _ hp')
          · rw [if_neg hk] at hp
            rcases List.mem_cons.mp hp with rfl | hp'
            · exact hq (k, ws) (List.mem_cons_self _ _)
            · exact ihq key wrd (fun r hr => hq r (List.mem_cons_of_mem _ hr)) p hp'
      exact this d (word_to_number l) l h
  intro k ws hget
  unfold Dictionary.get at hget
  rcases hfind : (load_dict lines).find? (fun p => p.1 = k) with _ | p
  · rw [hfind] at hget
    exact Option.noConfusion hget
  · rw [hfind] at hget
    have hws : p.2 = ws := Option.some.inj hget
    have hmem := List.mem_of_find?_eq_some hfind
    rw [← hws]
    exact hstruct p hmem

/-! ## C6 -/

/-- C6: at any search position, if some prefix of the remaining digits has
a dictionary bucket (for a program-built dictionary every bucket is
non-empty, so at least one word segment is pushed), then every complete
path from this position goes through a word segment push — no digit
segment is tried here.  If no prefix has a bucket, the search equals the
recursion on the digit-pushed stack exactly when the top of the stack is
not already a digit, and otherwise this branch yields zero complete
paths. -/
theorem word_priority_digit_fallback (lines : List String) (d : Nat)
    (ds : List Nat) (words : List WordOrDigit) (fuel : Nat) :
    ((∃ i, i < (d :: ds).length ∧
        ((load_dict lines).get ((d :: ds).take (i + 1))).isSome = true) →
      ∀ s ∈ searchAux (load_dict lines) (fuel + 1) (d :: ds) words,
        ∃ w t, s = words ++ WordOrDigit.Word w :: t) ∧
    ((∀ i, i < (d :: ds).length →
        (load_dict lines).get ((d :: ds).take (i + 1)) = none) →
      lastIsDigit words = false →
      searchAux (load_dict lines) (fuel + 1) (d :: ds) words
        = searchAux (load_dict lines) fuel ds
            (words ++ [WordOrDigit.Digit (d - 48)])) ∧
    ((∀ i, i < (d :: ds).length →
        (load_dict lines).get ((d :: ds).take (i + 1)) = none) →
      lastIsDigit words = true →
      searchAux (load_dict lines) (fuel + 1) (d :: ds) words = []) := by
  have hword_nil : (∀ i, i < (d :: ds).length →
      (load_dict lines).get ((d :: ds).take (i + 1)) = none) →
      ((List.range (d :: ds).length).flatMap (fun i =>
        match (load_dict lines).get ((d :: ds).take (i + 1)) with
        | some found_words => found_words.flatMap (fun w =>
            searchAux (load_dict lines) fuel ((d :: ds).drop (i + 1))
              (words ++ [WordOrDigit.Word w]))
        | none => [])) = [] := by
    intro hnone
    refine List.flatMap_eq_nil_iff.mpr (fun i hi => ?_)
    rw [hnone i (List.mem_range.mp hi)]
  have hfound_false : (∀ i, i < (d :: ds).length →
      (load_dict lines).get ((d :: ds).take (i + 1)) = none) →
      foundWord (load_dict lines) (d :: ds) = false := by
    intro hnone
    unfold foundWord
    rw [List.any_eq_false]
    intro i hi
    rw [hnone i (List.mem_range.mp hi)]
    simp
  refine ⟨?_, ?_, ?_⟩
  · rintro ⟨i, hi, hsome⟩ s hs
    have hf : foundWord (load_dict lines) (d :: ds) = true := by
      unfold foundWord
      rw [List.any_eq_true]
      refine ⟨i, List.mem_range.mpr hi, ?_⟩
      rcases hget : (load_dict lines).get ((d :: ds).take (i + 1)) with _ | ws
      · rw [hget] at hsome; simp at hsome
      · have hne := load_dict_buckets_ne_nil lines _ _ hget
        simp [hne]
    simp only [searchAux, hf, if_true, List.append_nil, List.mem_flatMap,
      List.mem_range] at hs
    rcases hs with ⟨j, hj, hmem⟩
    rcases hget : (load_dict lines).get ((d :: ds).take (j + 1)) with _ | found_words
    · rw [hget] at hmem; simp at hmem
    · rw [hget] at hmem
      simp only [List.mem_flatMap] at hmem
      rcases hmem with ⟨w, hwmem, hsrec⟩
      rcases searchAux_extends (load_dict lines) fuel _ _ s hsrec with ⟨t, ht⟩
      exact ⟨w, t, by simpa using ht⟩
  · intro hnone hlast
    simp only [searchAux]
    rw [hword_nil hnone, hfound_false hnone]
    simp [hlast]
  · intro hnone hlast
    simp only [searchAux]
    rw [hword_nil hnone, hfound_false hnone]
    simp [hlast]

/-- Witness for C6: with an empty dictionary and a digit on top of the
stack, the branch on "01" dies with zero solutions. -/
theorem word_priority_digit_fallback_witness :
    searchAux (load_dict []) 2 [48, 49] [WordOrDigit.Digit 7] = [] :=
  (word_priority_digit_fallback [] 48 [49] [WordOrDigit.Digit 7] 1).2.2
    (by decide) (by decide)

lemma lookupKeysAux_ne_nil (dict : Dictionary) :
    ∀ fuel digits words k, k ∈ lookupKeysAux dict fuel digits words →
      ¬ k = [] := by
  intro fuel
  induction fuel with
  | zero =>
    intro digits words k hk
    match digits with
    | [] => simp [lookupKeysAux] at hk
    | d :: ds => simp [lookupKeysAux] at hk
  | succ fuel ih =>
    intro digits words k hk
    match digits with
    | [] => simp [lookupKeysAux] at hk
    | d :: ds =>
      simp only [lookupKeysAux, List.mem_append, List.mem_map, List.mem_flatMap,
        List.mem_range] at hk
      rcases hk with (⟨i, hi, rfl⟩ | ⟨i, hi, hmem⟩) | hdig
      · rw [List.take_succ_cons]
        simp
      · rcases hget : dict.get ((d :: ds).take (i + 1)) with _ | found_words
        · rw [hget] at hmem; simp at hmem
        · rw [hget] at hmem
          simp only [List.mem_flatMap] at hmem
          rcases hmem with ⟨w, hwmem, hkrec⟩
          exact ih _ _ k hkrec
      · by_cases hf : foundWord dict (d :: ds)
        · simp [hf] at hdig
        · by_cases hl : lastIsDigit words
          · simp [hf, hl] at hdig
          · rw [if_neg hf, if_neg hl] at hdig
            exact ih _ _ k hdig

lemma searchAux_word_origin (dict : Dictionary) :
    ∀ fuel digits words s, s ∈ searchAux dict fuel digits words →
      ∀ w, WordOrDigit.Word w ∈ s →
        WordOrDigit.Word w ∈ words ∨
        ∃ k ws, ¬ k = [] ∧ dict.get k = some ws ∧ w ∈ ws := by
  intro fuel
  induction fuel with
  | zero =>
    intro digits words s hs w hws
    match digits with
    | [] => simp [searchAux] at hs; subst hs; exact Or.inl hws
    | d :: ds => simp [searchAux] at hs
  | succ fuel ih =>
    intro digits words s hs w hws
    match digits with
    | [] => simp [searchAux] at hs; subst hs; exact Or.inl hws
    | d :: ds =>
      simp only [searchAux, List.mem_append, List.mem_flatMap,
        List.mem_range] at hs
      rcases hs with ⟨i, hi, hmem⟩ | hdig
      · rcases hget : dict.get ((d :: ds).take (i + 1)) with _ | found_words
        · rw [hget] at hmem; simp at hmem
        · rw [hget] at hmem
          simp only [List.mem_flatMap] at hmem
          rcases hmem with ⟨w', hwmem, hsrec⟩
          rcases ih _ _ s hsrec w hws with hin | hout
          · rcases List.mem_append.mp hin with hin' | hin'
            · exact Or.inl hin'
            · simp at hin'
              subst hin'
              refine Or.inr ⟨(d :: ds).take (i + 1), found_words, ?_, hget, hwmem⟩
              rw [List.take_succ_cons]
              simp
          · exact Or.inr hout
      · by_cases hf : foundWord dict (d :: ds)
        · simp [hf] at hdig
        · by_cases hl : lastIsDigit words
          · simp [hf, hl] at hdig
          · rw [if_neg hf, if_neg hl] at hdig
            rcases ih _ _ s hdig w hws with hin | hout
            · rcases List.mem_append.mp hin with hin' | hin'
              · exact Or.inl hin'
              · simp at hin'
            · exact Or.inr hout

/-! ## C10 -/

/-- C10: a dictionary word with no alphabetic character is stored under the
empty digit key, but every key the search ever passes to the dictionary has
length at least one, so empty-key buckets are unreachable: no word of an
emitted segmentation has the empty digit key. -/
theorem empty_key_unreachable :
    (∀ w : String, (w.data.all fun c => !c.isAlpha) = true →
      word_to_number w = []) ∧
    (∀ (dict : Dictionary) (digits : List Nat) (k : List Nat),
      k ∈ lookupKeys dict digits → ¬ k = []) ∧
    (∀ (lines : List String) (num : String) (s : List WordOrDigit) (w : String),
      s ∈ (completeStacks (load_dict lines) (digitsOf num)).filter should_print →
      WordOrDigit.Word w ∈ s → ¬ word_to_number w = []) := by
  refine ⟨?_, ?_, ?_⟩
  · intro w hall
    unfold word_to_number
    have hfil : w.data.filter Char.isAlpha = [] := by
      rw [List.filter_eq_nil_iff]
      intro c hc
      have := List.all_eq_true.mp hall c hc
      simpa using this
    rw [hfil]
    rfl
  · intro dict digits k hk
    exact lookupKeysAux_ne_nil dict digits.length digits [] k hk
  · intro lines num s w hs hws
    have hmem := List.mem_of_mem_filter hs
    rcases searchAux_word_origin (load_dict lines) (digitsOf num).length
      (digitsOf num) [] s hmem w hws with hin | ⟨k, ws, hkne, hget, hwmem⟩
    · simp at hin
    · have := load_dict_coherent lines k ws w hget hwmem
      rw [this]
      exact hkne

/-- Witness for C10: "-" maps to the empty key, while the emitted word "e"
for input "0" has a non-empty key. -/
theorem empty_key_unreachable_witness :
    word_to_number "-" = [] ∧ ¬ word_to_number "e" = [] :=
  ⟨empty_key_unreachable.1 "-" (by decide),
   empty_key_unreachable.2.2 ["e"] "0" [WordOrDigit.Word "e"] "e"
     (by decide) (by decide)⟩
